import Mathlib

/-!
Verification of the ruleset resolution engine (`src/rulesets/reader.ts`).

The development shallowly embeds the reader: severities, extends edges,
the assoc-list model of JS objects (`Object.assign` semantics), the path
normalization used by `join`/`extname`, the parse/read callbacks handed to
the reference-resolution collaborator, the recursive resolver
`processRuleset` (with an explicit fuel in place of unbounded recursion
and the visited set threaded as state), the top-level `readRuleset`, and
the virtual module loader `createFakeRequire` (module sources are modelled
as a small tagged IR, as no general script evaluator exists here).

External collaborators that live outside this file's source (the mergers,
`findFile`, `readFile`, the reference-resolution code generator and the
shape validator) are modelled from the specification at their documented
interface; each such definition carries a doc comment saying so.
-/

/-- Modelled from the spec: `FileRulesetSeverity` (imported from
`../types/ruleset`, not part of the given source) — the small fixed set of
inheritance-affecting severity levels; `undefined` at the call sites is
modelled as `Option FileRulesetSeverity`. -/
inductive FileRulesetSeverity where
  | off
  | recommended
  | all
deriving DecidableEq, Repr

/-- An `extends` entry: either a bare locator or a `[locator, severity]`
pair (`Array.isArray(extended)` in the source distinguishes the two). -/
inductive ExtendsEdge where
  | plain (uri : String)
  | withSeverity (uri : String) (sev : FileRulesetSeverity)
deriving DecidableEq, Repr

/-- The `extends` field: a single bare locator or an array of edges. -/
inductive ExtendsField where
  | one (uri : String)
  | many (l : List ExtendsEdge)
deriving DecidableEq, Repr

/-- `Array.isArray(extendedRulesets) ? extendedRulesets : [extendedRulesets]`. -/
def extendsList : Option ExtendsField → List ExtendsEdge
  | none => []
  | some (.one u) => [ExtendsEdge.plain u]
  | some (.many l) => l

def edgeTarget : ExtendsEdge → String
  | .plain u => u
  | .withSeverity u _ => u

/-- The effective severity handed to the child of an extends edge
(lines 107–112 of the reader): for a `[uri, severity]` pair it is
`severity === undefined ? extended[1] : severity`; for a bare locator it is
`severity === undefined ? 'recommended' : severity`. -/
def effectiveSeverity (edge : ExtendsEdge) (severity : Option FileRulesetSeverity) :
    FileRulesetSeverity :=
  match edge with
  | .withSeverity _ es =>
    match severity with
    | none => es
    | some s => s
  | .plain _ =>
    match severity with
    | none => FileRulesetSeverity.recommended
    | some s => s

/-- `severity === undefined ? 'recommended' : severity` (line 124). -/
def severityOrDefault : Option FileRulesetSeverity → FileRulesetSeverity
  | none => FileRulesetSeverity.recommended
  | some s => s

/-! ### JS objects as association lists -/

/-- A JS object: insertion-ordered key/value pairs. -/
abbrev Obj (V : Type) := List (String × V)

/-- `o[k] = v`: overwrite in place when the key is present, append otherwise. -/
def setKey {V : Type} (o : Obj V) (k : String) (v : V) : Obj V :=
  if o.any (fun p => p.1 = k) then
    o.map (fun p => if p.1 = k then (k, v) else p)
  else
    o ++ [(k, v)]

/-- Key lookup; the rightmost binding wins, matching overwrite semantics
(keys are unique in every object the reader builds, so this agrees with
JS property lookup). -/
def getKey {V : Type} : Obj V → String → Option V
  | [], _ => none
  | p :: rest, k =>
    match getKey rest k with
    | some v => some v
    | none => if p.1 = k then some p.2 else none

def hasKey {V : Type} (o : Obj V) (k : String) : Bool :=
  o.any (fun p => p.1 = k)

/-- `Object.assign(target, src)`: every binding of `src` written into
`target`, later writes overwriting earlier ones. -/
def assignObj {V : Type} (target src : Obj V) : Obj V :=
  src.foldl (fun acc p => setKey acc p.1 p.2) target

/-! ### Path model (`@stoplight/path` join / extname)

The locator algebra of the external `@stoplight/path` package, modelled
over slash-separated segments: `join` concatenates its parts and
normalizes `.` , `..` and empty segments; `extname` is the suffix of the
last segment from its last (non-leading) dot. -/

/-- Split a character list at every `'/'`. Always returns at least one
(possibly empty) segment. -/
def segsOfChars : List Char → List (List Char)
  | [] => [[]]
  | c :: rest =>
    if c = '/' then [] :: segsOfChars rest
    else
      match segsOfChars rest with
      | [] => [[c]]
      | s :: ss => (c :: s) :: ss

/-- Rejoin segments with `'/'`. -/
def charsOfSegs : List (List Char) → List Char
  | [] => []
  | [s] => s
  | s :: rest => s ++ '/' :: charsOfSegs rest

/-- Normalize a segment stream onto an accumulator: empty and `.` segments
are dropped, `..` pops the last accumulated segment. -/
def joinSegs : List (List Char) → List (List Char) → List (List Char)
  | acc, [] => acc
  | acc, s :: rest =>
    if s = [] ∨ s = ['.'] then joinSegs acc rest
    else if s = ['.', '.'] then joinSegs acc.dropLast rest
    else joinSegs (acc ++ [s]) rest

def pathSegs (s : String) : List (List Char) :=
  segsOfChars s.data

/-- `join(...parts)` of `@stoplight/path`: concatenate and normalize. -/
def joinPath (parts : List String) : String :=
  String.mk (charsOfSegs (joinSegs [] (List.flatten (parts.map pathSegs))))

/-- The containing directory of a locator: `join(uri, '..')`. -/
def containingDir (u : String) : String :=
  joinPath [u, ".."]

/-- The suffix of `cs` after its last `'.'`, when one exists. -/
def afterLastDot : List Char → Option (List Char)
  | [] => none
  | c :: rest =>
    match afterLastDot rest with
    | some e => some e
    | none => if c = '.' then some rest else none

/-- `extname(source)`: the extension (dot included) of the last path
segment; a dot in leading position does not count. -/
def extname (s : String) : String :=
  match (pathSegs s).getLast? with
  | none => ""
  | some [] => ""
  | some (_ :: rest) =>
    match afterLastDot rest with
    | some e => String.mk ('.' :: e)
    | none => ""

/-- JS `String.prototype.endsWith`, computed over the character list. -/
def strEndsWith (s pat : String) : Bool :=
  pat.data.isSuffixOf s.data

/-- JS `String.prototype.startsWith`, computed over the character list. -/
def strStartsWith (s pat : String) : Bool :=
  pat.data.isPrefixOf s.data

/-! ### Parsing callbacks handed to the reference-resolution collaborator -/

/-- The outcome of handing raw content to the `fs.read` callback: parsed as
JSON, parsed as YAML, or returned verbatim. The external parsers are
modelled as injections of the raw text. -/
inductive Parsed where
  | json (content : String)
  | yaml (content : String)
  | raw (content : String)
deriving DecidableEq, Repr

/-- `parseContent` (lines 19–25): `JSON.parse` when the locator's
extension is `.json`, the YAML parser otherwise. -/
def parseContent (content source : String) : Parsed :=
  if extname source = ".json" then Parsed.json content
  else Parsed.yaml content

/-- The `fs.read` callback (lines 65–77): the fetched content is parsed
unless the locator ends with one of the two excluded schema suffixes, in
which case the raw text is returned verbatim. -/
def fsRead (source content : String) : Parsed :=
  if !(strEndsWith source "oas/schemas/schema.oas2.json")
      && !(strEndsWith source "oas/schemas/schema.oas3.json") then
    parseContent content source
  else
    Parsed.raw content

/-- `shouldResolve` (lines 82–84): a source takes part in further
reference resolution exactly when it is not one of the two excluded
schema locators. -/
def shouldResolve (source : String) : Bool :=
  !(strEndsWith source "oas/schemas/schema.oas2.json")
    && !(strEndsWith source "oas/schemas/schema.oas3.json")

/-! ### Ruleset data model -/

/-- A named rule definition: an optionally pinned severity, an optional
format filter, and fields opaque to this layer (`payload`). -/
structure RuleEntry where
  severity : Option FileRulesetSeverity := none
  formats : Option (List String) := none
  payload : Nat := 0
deriving DecidableEq, Repr

/-- A declared custom function: a bare name or a `[name, schema]` pair. -/
inductive FunctionDecl where
  | bare (name : String)
  | withSchema (name : String) (schema : Nat)
deriving DecidableEq, Repr

/-- `Array.isArray(fn) ? fn[0] : fn`. -/
def declName : FunctionDecl → String
  | .bare n => n
  | .withSchema n _ => n

/-- `Array.isArray(fn) ? fn[1] : null`. -/
def declSchema : FunctionDecl → Option Nat
  | .bare _ => none
  | .withSchema _ s => some s

/-- A resolved custom function (lines 150–159): name, source text,
optional schema, and the locator it was read from. -/
structure ResolvedFunction where
  name : String
  code : String
  schema : Option Nat
  source : String
deriving DecidableEq, Repr

/-- The shape-validated ruleset document produced by reference resolution,
instantiation and `assertValidRuleset`. -/
structure RulesetDoc where
  extendsField : Option ExtendsField := none
  rules : Option (Obj RuleEntry) := none
  exceptField : Option (Obj (List String)) := none
  formats : Option (List String) := none
  functions : Option (List FunctionDecl) := none
  functionsDir : Option String := none
deriving DecidableEq, Repr

/-- The accumulator returned by resolution: `{rules, functions,
exceptions}`. -/
structure IRuleset where
  rules : Obj RuleEntry
  functions : Obj ResolvedFunction
  exceptions : Obj (List String)
deriving DecidableEq, Repr

def emptyRuleset : IRuleset := ⟨[], [], []⟩

/-! ### Merge engine

The merge functions live in `./mergers`, outside the given source; they
are modelled from the spec's contract for them (§4.6). -/

/-- Modelled from the spec: the incoming merge severity becomes the
effective severity of a rule that does not pin its own. -/
def applyRuleSeverity (sev : FileRulesetSeverity) (r : RuleEntry) : RuleEntry :=
  match r.severity with
  | none => { r with severity := some sev }
  | some _ => r

/-- Modelled from the spec: `mergeRules(target, incoming, severity)`
writes every incoming rule into `target` (last writer wins per key),
applying `severity` to rules that do not pin their own. -/
def mergeRules (target incoming : Obj RuleEntry) (sev : FileRulesetSeverity) :
    Obj RuleEntry :=
  incoming.foldl (fun acc p => setKey acc p.1 (applyRuleSeverity sev p.2)) target

/-- Modelled from the spec: `mergeFunctions(target, incoming, rules)`
unions the function tables (last writer wins per key); the rule table is
consulted only for diagnostics and does not affect the result. -/
def mergeFunctions (target incoming : Obj ResolvedFunction)
    (rules : Obj RuleEntry) : Obj ResolvedFunction :=
  assignObj target incoming

/-- Modelled from the spec: a relative exception target pattern is
rewritten to be relative to the scoping base; absolute patterns are kept. -/
def rescopePattern (scopeBase pat : String) : String :=
  if strStartsWith pat "/" then pat else joinPath [scopeBase, "..", pat]

/-- Modelled from the spec: `mergeExceptions(target, incoming, scopeBase)`
unions exception entries (last writer wins per key), rewriting relative
target patterns against `scopeBase`. -/
def mergeExceptions (target incoming : Obj (List String)) (scopeBase : String) :
    Obj (List String) :=
  incoming.foldl (fun acc p => setKey acc (rescopePattern scopeBase p.1) p.2) target

/-- Modelled from the spec: `mergeFormats(rules, formats)` annotates every
already-accumulated rule with the format filter. -/
def mergeFormats (rules : Obj RuleEntry) (formats : List String) : Obj RuleEntry :=
  rules.map (fun p => (p.1, { p.2 with formats := some formats }))

/-! ### The recursive resolver -/

/-- Errors a resolution can reject with. `outOfFuel` is the artifact of
the explicit fuel replacing the source's unbounded recursion and never
corresponds to a source behaviour on terminating runs. -/
inductive Err where
  | outOfFuel
  | notFound (loc : String)
  | invalid (loc : String)
  | ioError (loc : String)
deriving DecidableEq, Repr

/-- The external collaborators at their interface boundary.
`findFile` is `findFile` of `./finder` (modelled from the spec: fails when
nothing matches); `load` collapses `generate` + virtual-module
instantiation + `assertValidRuleset` into an oracle producing the
shape-validated document or a fatal error (modelled from the spec);
`readFile` is `readFile` of `../fs/reader`; `isNPMSource` is the
package-sourced-locator test of `./finder` (modelled from the spec). -/
structure Env where
  findFile : String → String → Except Err String
  load : String → Except Err RulesetDoc
  readFile : String → Except Err String
  isNPMSource : String → Bool

/-- The Cycle Guard: the `processedRulesets` set, threaded as state. -/
structure RState where
  visited : List String
deriving DecidableEq, Repr

/-- The base directory declared functions are looked up in
(lines 136–140): `join(rulesetUri, isNPMSource ? '.' : '..',
functionsDir ?? 'functions')`. -/
def functionsBaseDir (npm : Bool) (rulesetUri : String)
    (functionsDir : Option String) : String :=
  joinPath
    [rulesetUri,
     if npm then "." else "..",
     match functionsDir with
     | some d => d
     | none => "functions"]

/-- The Function Binder (lines 143–164): each declared function is looked
up as `./<name>.js` under the base directory; a failing `findFile` rejects
the whole resolution (it sits outside the try block), while a failing
`readFile` merely skips the entry (the warning side effect is dropped). -/
def resolveFunctionsAux (env : Env) (baseDir : String) :
    Obj ResolvedFunction → List FunctionDecl → Except Err (Obj ResolvedFunction)
  | acc, [] => .ok acc
  | acc, fn :: rest =>
    match env.findFile baseDir ("./" ++ declName fn ++ ".js") with
    | .error e => .error e
    | .ok source =>
      match env.readFile source with
      | .error _ => resolveFunctionsAux env baseDir acc rest
      | .ok code =>
        resolveFunctionsAux env baseDir
          (setKey acc (declName fn) ⟨declName fn, code, declSchema fn, source⟩) rest

def resolveFunctions (env : Env) (baseDir : String)
    (decls : List FunctionDecl) : Except Err (Obj ResolvedFunction) :=
  resolveFunctionsAux env baseDir [] decls

/-- Merging one extends edge's contribution (lines 115–119): `null`
contributes nothing; otherwise rules are merged under the edge's effective
severity, functions are unioned via `Object.assign`, and exceptions are
merged scoped to `baseUri`. -/
def mergeExtended (baseUri : String) (acc : IRuleset)
    (parentSeverity : FileRulesetSeverity) :
    Option IRuleset → IRuleset
  | none => acc
  | some er =>
    ⟨mergeRules acc.rules er.rules parentSeverity,
     assignObj acc.functions er.functions,
     mergeExceptions acc.exceptions er.exceptions baseUri⟩

/-- The recursive resolver `processRuleset` (lines 50–170), with the
Cycle Guard threaded as state and an explicit fuel bounding the recursion
depth. Returns `none` (the source's `null`) for an already-visited
identity. -/
def processRuleset (env : Env) :
    Nat → RState → String → String → Option FileRulesetSeverity →
    Except Err (Option IRuleset × RState)
  | 0, _, _, _, _ => .error Err.outOfFuel
  | fuel + 1, st, baseUri, uri, severity =>
    match env.findFile (joinPath [baseUri, ".."]) uri with
    | .error e => .error e
    | .ok rulesetUri =>
      if st.visited.contains rulesetUri then .ok (none, st)
      else
        match env.load rulesetUri with
        | .error e => .error e
        | .ok ruleset =>
          let st1 : RState := ⟨rulesetUri :: st.visited⟩
          match
            (extendsList ruleset.extendsField).foldlM
              (fun (p : IRuleset × RState) (ext : ExtendsEdge) =>
                let parentSeverity := effectiveSeverity ext severity
                match
                  processRuleset env fuel p.2 rulesetUri (edgeTarget ext)
                    (some parentSeverity)
                with
                | .error e => Except.error e
                | .ok (er, st') =>
                  Except.ok (mergeExtended baseUri p.1 parentSeverity er, st'))
              (emptyRuleset, st1)
          with
          | .error e => .error e
          | .ok (acc0, st2) =>
            let acc1 :=
              match ruleset.rules with
              | none => acc0
              | some rs =>
                { acc0 with
                    rules := mergeRules acc0.rules rs (severityOrDefault severity) }
            let acc2 :=
              match ruleset.exceptField with
              | none => acc1
              | some ex =>
                { acc1 with
                    exceptions := mergeExceptions acc1.exceptions ex baseUri }
            let acc3 :=
              match ruleset.formats with
              | none => acc2
              | some fmts => { acc2 with rules := mergeFormats acc2.rules fmts }
            match ruleset.functions with
            | none => .ok (some acc3, st2)
            | some decls =>
              match
                resolveFunctions env
                  (functionsBaseDir (env.isNPMSource rulesetUri) rulesetUri
                    ruleset.functionsDir)
                  decls
              with
              | .error e => .error e
              | .ok resolved =>
                .ok
                  (some
                    { acc3 with
                        functions :=
                          mergeFunctions acc3.functions resolved acc3.rules },
                   st2)

/-- `new Set([...uris])` iterated in insertion order: deduplication that
keeps the first occurrence of each URI. -/
def dedupe (uris : List String) : List String :=
  uris.foldl (fun acc u => if acc.contains u then acc else acc ++ [u]) []

/-- The top-level reader `readRuleset` (lines 27–47) on a list of URIs:
each deduplicated URI is processed with a fresh Cycle Guard and a `null`
result contributes nothing; otherwise the result is unioned into the
accumulator via `Object.assign` per section. A rejection propagates. -/
def readRulesetAux (env : Env) (fuel : Nat) :
    IRuleset → List String → Except Err IRuleset
  | base, [] => .ok base
  | base, uri :: rest =>
    match processRuleset env fuel ⟨[]⟩ uri uri none with
    | .error e => .error e
    | .ok (none, _) => readRulesetAux env fuel base rest
    | .ok (some resolved, _) =>
      readRulesetAux env fuel
        ⟨assignObj base.rules resolved.rules,
         assignObj base.functions resolved.functions,
         assignObj base.exceptions resolved.exceptions⟩ rest

def readRuleset (env : Env) (fuel : Nat) (uris : List String) :
    Except Err IRuleset :=
  readRulesetAux env fuel emptyRuleset (dedupe uris)

/-! ### Virtual module loader (`createFakeRequire`, lines 173–197)

A generated module's source text is modelled as a small tagged IR: it may
assign a constant to the module-exports cell, assign the result of a
nested `require`, or terminate without assigning. Values are opaque. -/

/-- Values a module evaluation can produce. `undef` is JS `undefined`,
returned when the source never assigned its exports cell. -/
inductive JsValue where
  | createArrayHelper
  | data (n : Nat)
  | undef
deriving DecidableEq, Repr

/-- The intermediate representation of a generated module's source text. -/
inductive ModSource where
  | assignConst (v : JsValue)
  | assignRequire (dep : String)
  | noAssign
deriving DecidableEq, Repr

/-- Loader failures: the *module-not-found* error naming the identifier,
or fuel exhaustion (the artifact of bounding `require` recursion). -/
inductive ReqErr where
  | notFound (id : String)
  | outOfFuel
deriving DecidableEq, Repr

/-- The loader's mutable cache `evaluatedModules`. -/
structure ReqState where
  evaluated : Obj JsValue
deriving DecidableEq, Repr

def createArrayId : String := "json-ref-escodegen/runtime/create-array.cjs"

/-- The cache a fresh loader starts from: the built-in runtime helpers. -/
def initReqState : ReqState := ⟨[(createArrayId, JsValue.createArrayHelper)]⟩

/-- The `require` closure returned by `createFakeRequire`: cached modules
are returned as is; a generated source is evaluated in a scope receiving
`require` and a module cell whose setter writes the cache; anything else
raises the module-not-found error. The returned list records which module
sources were evaluated by the call. -/
def fakeRequire (avail : Obj ModSource) :
    Nat → ReqState → String → Except ReqErr JsValue × ReqState × List String
  | 0, st, _ => (Except.error ReqErr.outOfFuel, st, [])
  | fuel + 1, st, p =>
    match getKey st.evaluated p with
    | some v => (Except.ok v, st, [])
    | none =>
      match getKey avail p with
      | none => (Except.error (ReqErr.notFound p), st, [])
      | some (ModSource.assignConst v) =>
        let st' : ReqState := ⟨setKey st.evaluated p v⟩
        (Except.ok ((getKey st'.evaluated p).getD JsValue.undef), st', [p])
      | some (ModSource.assignRequire dep) =>
        match fakeRequire avail fuel st dep with
        | (Except.error e, st', log) => (Except.error e, st', p :: log)
        | (Except.ok v, st', log) =>
          let st2 : ReqState := ⟨setKey st'.evaluated p v⟩
          (Except.ok ((getKey st2.evaluated p).getD JsValue.undef), st2, p :: log)
      | some ModSource.noAssign =>
        (Except.ok ((getKey st.evaluated p).getD JsValue.undef), st, [p])

/-! ### Concrete environments exercising the resolver -/

/-- Two rulesets extending each other (`a ⇄ b`), each with one own rule. -/
def envCycle : Env :=
  { findFile := fun _ uri => Except.ok uri
    load := fun id =>
      if id = "a" then
        Except.ok
          { extendsField := some (ExtendsField.many [ExtendsEdge.plain "b"])
            rules := some [("ra", {})] }
      else if id = "b" then
        Except.ok
          { extendsField := some (ExtendsField.many [ExtendsEdge.plain "a"])
            rules := some [("rb", {})] }
      else Except.error (Err.notFound id)
    readFile := fun s => Except.error (Err.ioError s)
    isNPMSource := fun _ => false }

/-- A ruleset extending itself, with one own rule. -/
def envSelfCycle : Env :=
  { findFile := fun _ uri => Except.ok uri
    load := fun id =>
      if id = "s" then
        Except.ok
          { extendsField := some (ExtendsField.many [ExtendsEdge.plain "s"])
            rules := some [("rs", {})] }
      else Except.error (Err.notFound id)
    readFile := fun s => Except.error (Err.ioError s)
    isNPMSource := fun _ => false }

/-- `a` extends `[b, c]` in that order; `b` and `c` both define rule `r`. -/
def envOrder (eB eC : RuleEntry) : Env :=
  { findFile := fun _ uri => Except.ok uri
    load := fun id =>
      if id = "a" then
        Except.ok
          { extendsField :=
              some (ExtendsField.many [ExtendsEdge.plain "b", ExtendsEdge.plain "c"]) }
      else if id = "b" then Except.ok { rules := some [("r", eB)] }
      else if id = "c" then Except.ok { rules := some [("r", eC)] }
      else Except.error (Err.notFound id)
    readFile := fun s => Except.error (Err.ioError s)
    isNPMSource := fun _ => false }

/-- `a` extends `b`; both define rule `r` (own rules merge after edges). -/
def envOwnAfter (eA eB : RuleEntry) : Env :=
  { findFile := fun _ uri => Except.ok uri
    load := fun id =>
      if id = "a" then
        Except.ok
          { extendsField := some (ExtendsField.many [ExtendsEdge.plain "b"])
            rules := some [("r", eA)] }
      else if id = "b" then Except.ok { rules := some [("r", eB)] }
      else Except.error (Err.notFound id)
    readFile := fun s => Except.error (Err.ioError s)
    isNPMSource := fun _ => false }

/-- Ruleset `a` fails shape validation; ruleset `b` is fine. -/
def envOneBad : Env :=
  { findFile := fun _ uri => Except.ok uri
    load := fun id =>
      if id = "a" then Except.error (Err.invalid "a")
      else if id = "b" then Except.ok { rules := some [("rb", {})] }
      else Except.error (Err.notFound id)
    readFile := fun s => Except.error (Err.ioError s)
    isNPMSource := fun _ => false }

/-- A ruleset declaring functions `f1, f2` where `f2`'s source cannot be
located (`findFile` rejects it). -/
def envFnUnlocatable : Env :=
  { findFile := fun _ name =>
      if name = "./f2.js" then Except.error (Err.notFound "./f2.js")
      else Except.ok name
    load := fun id =>
      if id = "a" then
        Except.ok { functions := some [FunctionDecl.bare "f1", FunctionDecl.bare "f2"] }
      else Except.error (Err.notFound id)
    readFile := fun s => Except.ok s
    isNPMSource := fun _ => false }

/-- A ruleset declaring functions `f1, f2` where `f2`'s source is located
but cannot be read. -/
def envFnUnreadable : Env :=
  { findFile := fun _ name => Except.ok name
    load := fun id =>
      if id = "a" then
        Except.ok { functions := some [FunctionDecl.bare "f1", FunctionDecl.bare "f2"] }
      else Except.error (Err.notFound id)
    readFile := fun s =>
      if s = "./f2.js" then Except.error (Err.ioError s) else Except.ok s
    isNPMSource := fun _ => false }

/-- Two independent rulesets `a` and `b` contributing a rule, a function
and an exception under the same keys. -/
def envTwoUris : Env :=
  { findFile := fun _ name => Except.ok name
    load := fun id =>
      if id = "a" then
        Except.ok
          { rules := some [("r", { payload := 1 })]
            exceptField := some [("/p", ["x1"])]
            functions := some [FunctionDecl.bare "f"] }
      else if id = "b" then
        Except.ok
          { rules := some [("r", { payload := 2 })]
            exceptField := some [("/p", ["x2"])]
            functions := some [FunctionDecl.withSchema "f" 3] }
      else Except.error (Err.notFound id)
    readFile := fun s => Except.ok s
    isNPMSource := fun _ => false }

/-! ### Object lemmas -/

theorem getKey_append {V : Type} (xs ys : Obj V) (k : String) :
    getKey (xs ++ ys) k =
      match getKey ys k with
      | some v => some v
      | none => getKey xs k := by
  induction xs with
  | nil => cases h : getKey ys k <;> simp [getKey, h]
  | cons p rest ih =>
    rw [List.cons_append]
    show (match getKey (rest ++ ys) k with
          | some v => some v
          | none => if p.1 = k then some p.2 else none) = _
    rw [ih]
    cases h : getKey ys k with
    | some v => simp
    | none =>
      cases h' : getKey rest k <;> simp [getKey, h']

theorem getKey_map_none {V : Type} (o : Obj V) (a : String) (v : V)
    (h : o.any (fun p => p.1 = a) = false) :
    getKey (o.map (fun p => if p.1 = a then (a, v) else p)) a = none := by
  induction o with
  | nil => rfl
  | cons p rest ih =>
    simp only [List.any_cons, Bool.or_eq_false_iff, decide_eq_false_iff_not] at h
    simp [List.map_cons, getKey, ih h.2, if_neg h.1, h.1]

theorem getKey_map_self {V : Type} (o : Obj V) (a : String) (v : V)
    (h : o.any (fun p => p.1 = a) = true) :
    getKey (o.map (fun p => if p.1 = a then (a, v) else p)) a = some v := by
  induction o with
  | nil => simp at h
  | cons p rest ih =>
    simp only [List.map_cons, getKey]
    cases hrest : rest.any (fun p => p.1 = a) with
    | true => rw [ih hrest]
    | false =>
      have hp : p.1 = a := by
        simp only [List.any_cons, Bool.or_eq_true, decide_eq_true_eq] at h
        rcases h with h | h
        · exact h
        · rw [h] at hrest; cases hrest
      rw [getKey_map_none rest a v hrest]
      simp [hp]

theorem getKey_map_other {V : Type} (o : Obj V) (a k : String) (v : V)
    (hk : k ≠ a) :
    getKey (o.map (fun p => if p.1 = a then (a, v) else p)) k = getKey o k := by
  induction o with
  | nil => rfl
  | cons p rest ih =>
    simp only [List.map_cons, getKey, ih]
    cases h' : getKey rest k with
    | some w => rfl
    | none =>
      by_cases hp : p.1 = a
      · simp [hp, Ne.symm hk]
      · simp [hp]

theorem getKey_setKey {V : Type} (o : Obj V) (a k : String) (v : V) :
    getKey (setKey o a v) k = if a = k then some v else getKey o k := by
  unfold setKey
  cases h : o.any (fun p => p.1 = a) with
  | true =>
    by_cases hk : k = a
    · subst hk
      simp [getKey_map_self o k v h]
    · rw [if_pos rfl]
      simp [getKey_map_other o a k v hk, if_neg (Ne.symm hk)]
  | false =>
    rw [if_neg (by simp [h]), getKey_append]
    by_cases hk : a = k
    · subst hk
      simp [getKey]
    · have : getKey [(a, v)] k = none := by
        simp [getKey, hk]
      rw [this]
      simp [if_neg hk]

theorem getKey_assignObj {V : Type} (s t : Obj V) (k : String) :
    getKey (assignObj t s) k =
      match getKey s k with
      | some v => some v
      | none => getKey t k := by
  induction s generalizing t with
  | nil => rfl
  | cons p rest ih =>
    show getKey (assignObj (setKey t p.1 p.2) rest) k = _
    rw [ih (setKey t p.1 p.2)]
    show _ = (match getKey (p :: rest) k with
              | some v => some v
              | none => getKey t k)
    cases h : getKey rest k with
    | some v => simp [getKey, h]
    | none =>
      rw [getKey_setKey]
      by_cases hp : p.1 = k
      · simp [getKey, h, hp]
      · simp [getKey, h, hp]

theorem getKey_assignObj_some {V : Type} (s t : Obj V) (k : String) (v : V)
    (h : getKey s k = some v) : getKey (assignObj t s) k = some v := by
  rw [getKey_assignObj, h]

theorem applyRuleSeverity_idem (s : FileRulesetSeverity) (r : RuleEntry) :
    applyRuleSeverity s (applyRuleSeverity s r) = applyRuleSeverity s r := by
  cases r with
  | mk sev fmts payload => cases sev <;> rfl

/-! ### Deduplication lemmas -/

theorem dedupe_foldl_front (us : List String) :
    ∀ acc : List String,
      ∃ tail,
        us.foldl (fun acc u => if acc.contains u then acc else acc ++ [u]) acc =
          acc ++ tail := by
  induction us with
  | nil => intro acc; exact ⟨[], by simp⟩
  | cons u rest ih =>
    intro acc
    simp only [List.foldl_cons]
    by_cases h : acc.contains u
    · rw [if_pos h]; exact ih acc
    · rw [if_neg h]
      obtain ⟨tail, ht⟩ := ih (acc ++ [u])
      exact ⟨u :: tail, by simpa [List.append_assoc] using ht⟩

theorem dedupe_cons (u : String) (us : List String) :
    ∃ tail, dedupe (u :: us) = u :: tail := by
  unfold dedupe
  simp only [List.foldl_cons]
  have hnc : (List.nil (α := String)).contains u = false := rfl
  rw [hnc]
  simp only [Bool.false_eq_true, if_false, List.nil_append]
  obtain ⟨tail, ht⟩ := dedupe_foldl_front us [u]
  exact ⟨tail, by simpa using ht⟩

/-! ### Path lemmas -/

/-- A segment that `joinSegs` appends verbatim: non-empty, not `.` or
`..`, and slash-free. -/
def goodSeg (s : List Char) : Prop :=
  ¬(s = [] ∨ s = ['.']) ∧ s ≠ ['.', '.'] ∧ '/' ∉ s

theorem joinSegs_append (a b acc : List (List Char)) :
    joinSegs acc (a ++ b) = joinSegs (joinSegs acc a) b := by
  induction a generalizing acc with
  | nil => rfl
  | cons s rest ih =>
    simp only [List.cons_append, joinSegs]
    by_cases h1 : s = [] ∨ s = ['.']
    · rw [if_pos h1, if_pos h1]; exact ih acc
    · rw [if_neg h1, if_neg h1]
      by_cases h2 : s = ['.', '.']
      · rw [if_pos h2, if_pos h2]; exact ih _
      · rw [if_neg h2, if_neg h2]; exact ih _

theorem segsOfChars_ne_nil (cs : List Char) : segsOfChars cs ≠ [] := by
  induction cs with
  | nil => simp [segsOfChars]
  | cons c rest ih =>
    simp only [segsOfChars]
    by_cases h : c = '/'
    · simp [h]
    · rw [if_neg h]
      cases hs : segsOfChars rest with
      | nil => simp
      | cons s ss => simp

theorem segsOfChars_no_slash (cs : List Char) :
    ∀ s ∈ segsOfChars cs, '/' ∉ s := by
  induction cs with
  | nil =>
    intro s hs
    simp [segsOfChars] at hs
    simp [hs]
  | cons c rest ih =>
    intro s hs
    simp only [segsOfChars] at hs
    by_cases h : c = '/'
    · rw [if_pos h] at hs
      rcases List.mem_cons.mp hs with h' | h'
      · simp [h']
      · exact ih s h'
    · rw [if_neg h] at hs
      cases hrest : segsOfChars rest with
      | nil => exact absurd hrest (segsOfChars_ne_nil rest)
      | cons t ts =>
        rw [hrest] at hs
        rcases List.mem_cons.mp hs with h' | h'
        · subst h'
          intro hmem
          rcases List.mem_cons.mp hmem with h'' | h''
          · exact h h''.symm
          · exact ih t (by rw [hrest]; exact List.mem_cons_self t ts) h''
        · exact ih s (by rw [hrest]; exact List.mem_cons_of_mem t h')

theorem segsOfChars_single (s : List Char) (h : '/' ∉ s) :
    segsOfChars s = [s] := by
  induction s with
  | nil => rfl
  | cons c rest ih =>
    have hc : c ≠ '/' := fun hc => h (by simp [hc])
    have hrest : '/' ∉ rest := fun hr => h (List.mem_cons_of_mem c hr)
    simp only [segsOfChars, if_neg hc, ih hrest]

theorem segsOfChars_slash_append (s t : List Char) (h : '/' ∉ s) :
    segsOfChars (s ++ '/' :: t) = s :: segsOfChars t := by
  induction s with
  | nil => simp [segsOfChars]
  | cons c rest ih =>
    have hc : c ≠ '/' := fun hc => h (by simp [hc])
    have hrest : '/' ∉ rest := fun hr => h (List.mem_cons_of_mem c hr)
    rw [List.cons_append]
    simp only [segsOfChars, if_neg hc]
    rw [ih hrest]

theorem segsOfChars_charsOfSegs (l : List (List Char))
    (hl : ∀ s ∈ l, '/' ∉ s) (hne : l ≠ []) :
    segsOfChars (charsOfSegs l) = l := by
  induction l with
  | nil => exact absurd rfl hne
  | cons s rest ih =>
    cases rest with
    | nil =>
      exact segsOfChars_single s (hl s (List.mem_cons_self s []))
    | cons t ts =>
      have : charsOfSegs (s :: t :: ts) = s ++ '/' :: charsOfSegs (t :: ts) := rfl
      rw [this,
        segsOfChars_slash_append s _ (hl s (List.mem_cons_self s (t :: ts))),
        ih (fun x hx => hl x (List.mem_cons_of_mem s hx)) (by simp)]

theorem joinSegs_good (input : List (List Char)) :
    ∀ acc : List (List Char),
      (∀ s ∈ acc, goodSeg s) → (∀ s ∈ input, '/' ∉ s) →
      ∀ s ∈ joinSegs acc input, goodSeg s := by
  induction input with
  | nil => intro acc hacc _ s hs; exact hacc s hs
  | cons t rest ih =>
    intro acc hacc hin s hs
    simp only [joinSegs] at hs
    by_cases h1 : t = [] ∨ t = ['.']
    · rw [if_pos h1] at hs
      exact ih acc hacc (fun x hx => hin x (List.mem_cons_of_mem t hx)) s hs
    · rw [if_neg h1] at hs
      by_cases h2 : t = ['.', '.']
      · rw [if_pos h2] at hs
        exact ih acc.dropLast
          (fun x hx => hacc x (List.dropLast_subset acc hx))
          (fun x hx => hin x (List.mem_cons_of_mem t hx)) s hs
      · rw [if_neg h2] at hs
        refine ih (acc ++ [t]) ?_ (fun x hx => hin x (List.mem_cons_of_mem t hx)) s hs
        intro x hx
        rcases List.mem_append.mp hx with h' | h'
        · exact hacc x h'
        · have hx' : x = t := by simpa using h'
          subst hx'
          exact ⟨h1, h2, hin x (List.mem_cons_self x rest)⟩

theorem joinSegs_id (l : List (List Char)) :
    ∀ acc, (∀ s ∈ l, goodSeg s) → joinSegs acc l = acc ++ l := by
  induction l with
  | nil => intro acc _; simp [joinSegs]
  | cons s rest ih =>
    intro acc h
    have hs : goodSeg s := h s (List.mem_cons_self s rest)
    simp only [joinSegs, if_neg hs.1, if_neg hs.2.1]
    rw [ih (acc ++ [s]) (fun x hx => h x (List.mem_cons_of_mem s hx))]
    simp

theorem joinSegs_resplit (L b : List (List Char))
    (hL : ∀ s ∈ L, goodSeg s) :
    joinSegs [] (pathSegs (String.mk (charsOfSegs L)) ++ b) = joinSegs L b := by
  have hps : pathSegs (String.mk (charsOfSegs L)) = segsOfChars (charsOfSegs L) := rfl
  cases L with
  | nil =>
    rw [hps]
    have : segsOfChars (charsOfSegs []) = [[]] := rfl
    rw [this]
    have : joinSegs [] (([] : List Char) :: b) = joinSegs [] b := by
      simp [joinSegs]
    simpa using this
  | cons s rest =>
    rw [hps,
      segsOfChars_charsOfSegs (s :: rest)
        (fun x hx => (hL x hx).2.2) (by simp),
      joinSegs_append]
    rw [joinSegs_id (s :: rest) [] hL]
    simp

theorem pathSegs_dotdot : pathSegs ".." = [['.', '.']] := rfl

theorem pathSegs_dot : pathSegs "." = [['.']] := rfl

theorem joinSegs_dot_cons (acc : List (List Char)) (rest : List (List Char)) :
    joinSegs acc (['.'] :: rest) = joinSegs acc rest := by
  simp [joinSegs]

/-! ### Loader lemmas -/

theorem fakeRequire_notFound_src (avail : Obj ModSource) :
    ∀ (fuel : Nat) (st : ReqState) (p q : String),
      (fakeRequire avail fuel st p).1 = Except.error (ReqErr.notFound q) →
      getKey st.evaluated q = none ∧ getKey avail q = none := by
  intro fuel
  induction fuel with
  | zero =>
    intro st p q h
    simp [fakeRequire] at h
  | succ n ih =>
    intro st p q h
    simp only [fakeRequire] at h
    cases hc : getKey st.evaluated p with
    | some v => rw [hc] at h; simp at h
    | none =>
      rw [hc] at h
      cases ha : getKey avail p with
      | none =>
        rw [ha] at h
        simp only [Except.error.injEq, ReqErr.notFound.injEq] at h
        subst h
        exact ⟨hc, ha⟩
      | some src =>
        rw [ha] at h
        cases src with
        | assignConst v => simp at h
        | noAssign => simp at h
        | assignRequire dep =>
          dsimp only at h
          rcases hr : fakeRequire avail n st dep with ⟨r, st', log⟩
          rw [hr] at h
          cases r with
          | error e =>
            simp only at h
            refine ih st dep q ?_
            rw [hr]
            simpa using h
          | ok v => simp at h

theorem fakeRequire_cached_val (avail : Obj ModSource) (fuel : Nat)
    (st : ReqState) (p : String) (v : JsValue) (st₁ : ReqState)
    (log : List String) (w : JsValue)
    (h : fakeRequire avail fuel st p = (Except.ok v, st₁, log))
    (hw : getKey st₁.evaluated p = some w) : w = v := by
  cases fuel with
  | zero => simp [fakeRequire] at h
  | succ n =>
    simp only [fakeRequire] at h
    cases hc : getKey st.evaluated p with
    | some u =>
      rw [hc] at h
      simp only [Prod.mk.injEq, Except.ok.injEq] at h
      obtain ⟨hv, hst, -⟩ := h
      rw [← hst] at hw
      rw [hc] at hw
      injection hw with h'
      exact h'.symm.trans hv
    | none =>
      rw [hc] at h
      cases ha : getKey avail p with
      | none => rw [ha] at h; simp at h
      | some src =>
        rw [ha] at h
        cases src with
        | assignConst c =>
          have hg : getKey (setKey st.evaluated p c) p = some c := by
            rw [getKey_setKey]; simp
          simp only [hg, Option.getD_some, Prod.mk.injEq, Except.ok.injEq] at h
          obtain ⟨hv, hst, -⟩ := h
          rw [← hst] at hw
          dsimp only at hw
          rw [hg] at hw
          injection hw with h'
          exact h'.symm.trans hv
        | assignRequire dep =>
          dsimp only at h
          rcases hr : fakeRequire avail n st dep with ⟨r, st', log'⟩
          rw [hr] at h
          cases r with
          | error e => simp at h
          | ok u =>
            have hg : getKey (setKey st'.evaluated p u) p = some u := by
              rw [getKey_setKey]; simp
            simp only [hg, Option.getD_some, Prod.mk.injEq, Except.ok.injEq] at h
            obtain ⟨hv, hst, -⟩ := h
            rw [← hst] at hw
            dsimp only at hw
            rw [hg] at hw
            injection hw with h'
            exact h'.symm.trans hv
        | noAssign =>
          dsimp only at h
          simp only [Option.getD_none, Prod.mk.injEq, Except.ok.injEq] at h
          obtain ⟨hv, hst, -⟩ := h
          rw [← hst] at hw
          rw [hc] at hw
          simp at hw

theorem joinPath_parent_dir (u dir : String) :
    joinPath [u, "..", dir] = joinPath [containingDir u, dir] := by
  have hslash : ∀ s ∈ pathSegs u ++ [['.', '.']], '/' ∉ s := by
    intro s hs
    rcases List.mem_append.mp hs with h | h
    · exact segsOfChars_no_slash u.data s h
    · have hx : s = ['.', '.'] := by simpa using h
      subst hx
      decide
  have hL : ∀ s ∈ joinSegs [] (pathSegs u ++ [['.', '.']]), goodSeg s :=
    joinSegs_good _ []
      (fun s hs => absurd hs (List.not_mem_nil s)) hslash
  show String.mk _ = String.mk _
  congr 1
  have e1 : List.flatten (List.map pathSegs [u, "..", dir]) =
      (pathSegs u ++ [['.', '.']]) ++ pathSegs dir := by
    simp [pathSegs_dotdot, List.append_assoc]
  have e2 : List.flatten (List.map pathSegs [containingDir u, dir]) =
      pathSegs (containingDir u) ++ pathSegs dir := by
    simp
  rw [e1, e2, joinSegs_append]
  have hcd : containingDir u =
      String.mk (charsOfSegs (joinSegs [] (pathSegs u ++ [['.', '.']]))) := by
    show joinPath [u, ".."] = _
    have : List.flatten (List.map pathSegs [u, ".."]) =
        pathSegs u ++ [['.', '.']] := by
      simp [pathSegs_dotdot]
    rw [joinPath, this]
  rw [hcd, joinSegs_resplit _ _ hL]

theorem joinPath_self_dir (u dir : String) :
    joinPath [u, ".", dir] = joinPath [u, dir] := by
  show String.mk _ = String.mk _
  congr 1
  have e1 : List.flatten (List.map pathSegs [u, ".", dir]) =
      pathSegs u ++ (['.'] :: pathSegs dir) := by
    simp [pathSegs_dot]
  have e2 : List.flatten (List.map pathSegs [u, dir]) =
      pathSegs u ++ pathSegs dir := by
    simp
  rw [e1, e2, joinSegs_append, joinSegs_dot_cons, ← joinSegs_append]

/-! ### Claim theorems -/

/-- C1: for an extends edge, the effective severity passed to the child is
the edge's severity when the edge forces one and the caller's inherited
severity is undefined; the caller's severity whenever it is defined
(overriding any edge severity); and `recommended` when neither exists. -/
theorem effectiveSeverity_tiebreak_c1 :
    ∀ (u : String) (es cs : FileRulesetSeverity) (e : ExtendsEdge),
      effectiveSeverity (ExtendsEdge.withSeverity u es) none = es ∧
      effectiveSeverity e (some cs) = cs ∧
      effectiveSeverity (ExtendsEdge.plain u) none = FileRulesetSeverity.recommended := by
  intro u es cs e
  refine ⟨rfl, ?_, rfl⟩
  cases e <;> rfl

/-- C2 counterexample: the claim that a fatal error on one top-level URI
does not abort the others fails on the code: with ruleset `a` failing
shape validation and ruleset `b` loading fine, `readRuleset ["a", "b"]`
rejects with `a`'s error instead of returning `b`'s contribution, which a
request for `b` alone does produce. -/
theorem readRuleset_no_isolation_c2_cex :
    readRuleset envOneBad 1 ["a", "b"] = Except.error (Err.invalid "a") ∧
    readRuleset envOneBad 1 ["b"] =
      Except.ok ⟨[("rb", { severity := some FileRulesetSeverity.recommended })], [], []⟩ :=
  ⟨rfl, rfl⟩

/-- C2 amended: a fatal error raised while resolving a top-level URI
propagates out of `readRuleset`: the remaining URIs are not processed and
no union of non-failing URIs is returned. -/
theorem readRuleset_error_propagates_c2 :
    ∀ (env : Env) (fuel : Nat) (u : String) (us : List String) (e : Err),
      processRuleset env fuel ⟨[]⟩ u u none = Except.error e →
      readRuleset env fuel (u :: us) = Except.error e := by
  intro env fuel u us e h
  unfold readRuleset
  obtain ⟨tail, ht⟩ := dedupe_cons u us
  rw [ht]
  simp only [readRulesetAux]
  rw [h]

/-- C2 witness: the amended claim instantiated on the concrete
environment where `a` fails validation. -/
theorem readRuleset_error_propagates_c2_witness :
    readRuleset envOneBad 1 ["a", "b"] = Except.error (Err.invalid "a") :=
  readRuleset_error_propagates_c2 envOneBad 1 "a" ["b"] (Err.invalid "a") (by rfl)

/-- C3 counterexample: a declared function whose source cannot be located
is not merely warned about — `findFile` sits outside the try block, so the
whole resolution rejects, contradicting the claim that resolution
succeeds with the function omitted. -/
theorem fn_unlocatable_fatal_c3_cex :
    readRuleset envFnUnlocatable 1 ["a"] = Except.error (Err.notFound "./f2.js") := rfl

/-- C3 amended: a declared function whose located source cannot be *read*
is non-fatal: it is omitted from the function table, every other declared
function is still resolved, and the overall resolution succeeds; a
function whose source cannot be *located* is fatal. -/
theorem fn_unreadable_nonfatal_c3 :
    (∀ (env : Env) (baseDir n₁ n₂ s₁ s₂ c₁ : String) (err : Err),
      env.findFile baseDir ("./" ++ n₁ ++ ".js") = Except.ok s₁ →
      env.findFile baseDir ("./" ++ n₂ ++ ".js") = Except.ok s₂ →
      env.readFile s₁ = Except.ok c₁ →
      env.readFile s₂ = Except.error err →
      resolveFunctions env baseDir [FunctionDecl.bare n₁, FunctionDecl.bare n₂] =
        Except.ok [(n₁, ⟨n₁, c₁, none, s₁⟩)]) ∧
    readRuleset envFnUnreadable 1 ["a"] =
      Except.ok ⟨[], [("f1", ⟨"f1", "./f1.js", none, "./f1.js"⟩)], []⟩ := by
  refine ⟨?_, rfl⟩
  intro env baseDir n₁ n₂ s₁ s₂ c₁ err hf1 hf2 hr1 hr2
  unfold resolveFunctions
  simp only [resolveFunctionsAux, declName, declSchema]
  rw [hf1]
  dsimp only
  rw [hr1]
  dsimp only
  rw [hf2]
  dsimp only
  rw [hr2]
  dsimp only
  simp [setKey]

/-- C3 witness: the amended claim instantiated on the environment where
`f2`'s source is located but unreadable. -/
theorem fn_unreadable_nonfatal_c3_witness :
    resolveFunctions envFnUnreadable "functions"
        [FunctionDecl.bare "f1", FunctionDecl.bare "f2"] =
      Except.ok [("f1", ⟨"f1", "./f1.js", none, "./f1.js"⟩)] :=
  fn_unreadable_nonfatal_c3.1 envFnUnreadable "functions" "f1" "f2" "./f1.js"
    "./f2.js" "./f1.js" (Err.ioError "./f2.js") (by rfl) (by rfl) (by rfl) (by rfl)

/-- C4: resolution of cyclic extends graphs terminates — the mutual cycle
`a ⇄ b` and the self-cycle `s → s` both resolve to the rules contributed
once per ruleset; an already-visited identity makes `processRuleset`
return `null` with the Cycle Guard unchanged (the identity was recorded
before recursing); and a `null` edge result contributes nothing to the
accumulator. -/
theorem cycle_termination_c4 :
    (readRuleset envCycle 3 ["a"] =
      Except.ok
        ⟨[("rb", { severity := some FileRulesetSeverity.recommended }),
          ("ra", { severity := some FileRulesetSeverity.recommended })], [], []⟩) ∧
    (readRuleset envSelfCycle 2 ["s"] =
      Except.ok
        ⟨[("rs", { severity := some FileRulesetSeverity.recommended })], [], []⟩) ∧
    (∀ (env : Env) (fuel : Nat) (st : RState) (baseUri uri : String)
        (sev : Option FileRulesetSeverity) (rid : String),
      env.findFile (joinPath [baseUri, ".."]) uri = Except.ok rid →
      st.visited.contains rid = true →
      processRuleset env (fuel + 1) st baseUri uri sev = Except.ok (none, st)) ∧
    (∀ (baseUri : String) (acc : IRuleset) (ps : FileRulesetSeverity),
      mergeExtended baseUri acc ps none = acc) := by
  refine ⟨rfl, rfl, ?_, fun _ _ _ => rfl⟩
  intro env fuel st baseUri uri sev rid h1 h2
  simp only [processRuleset]
  rw [h1]
  dsimp only
  rw [if_pos h2]

/-- C4 witness: the already-visited branch instantiated concretely —
requesting `a` again while `a` is in the Cycle Guard yields `null`. -/
theorem cycle_termination_c4_witness :
    processRuleset envCycle 1 ⟨["a"]⟩ "x" "a" none = Except.ok (none, ⟨["a"]⟩) :=
  cycle_termination_c4.2.2.1 envCycle 0 ⟨["a"]⟩ "x" "a" none "a" (by rfl) (by decide)

/-- C5: with `a` extending `[b, c]` in that order and both parents
defining rule `r`, the merged entry for `r` is the one contributed
through the `c` edge (later edge wins); and when the extending ruleset
itself also defines `r`, its own entry wins because own rules are merged
after all extends edges — last writer wins at every merge. -/
theorem extends_order_last_wins_c5 :
    ∀ eB eC eA : RuleEntry,
      processRuleset (envOrder eB eC) 2 ⟨[]⟩ "a" "a" none =
        Except.ok
          (some ⟨[("r", applyRuleSeverity FileRulesetSeverity.recommended eC)], [], []⟩,
           ⟨["c", "b", "a"]⟩) ∧
      processRuleset (envOwnAfter eA eB) 2 ⟨[]⟩ "a" "a" none =
        Except.ok
          (some ⟨[("r", applyRuleSeverity FileRulesetSeverity.recommended eA)], [], []⟩,
           ⟨["b", "a"]⟩) := by
  intro eB eC eA
  constructor
  · have h := applyRuleSeverity_idem FileRulesetSeverity.recommended eC
    calc processRuleset (envOrder eB eC) 2 ⟨[]⟩ "a" "a" none
        = Except.ok
            (some ⟨[("r", applyRuleSeverity FileRulesetSeverity.recommended
                      (applyRuleSeverity FileRulesetSeverity.recommended eC))], [], []⟩,
             ⟨["c", "b", "a"]⟩) := rfl
      _ = Except.ok
            (some ⟨[("r", applyRuleSeverity FileRulesetSeverity.recommended eC)], [], []⟩,
             ⟨["c", "b", "a"]⟩) := by rw [h]
  · rfl

/-- C6: on a fresh loader, requesting an identifier yields the
module-not-found error naming that identifier exactly when it matches
neither the built-in helper nor the generated-source map; the built-in
helper resolves first even when the generated map also binds its name. -/
theorem module_not_found_iff_c6 :
    ∀ (fuel : Nat) (avail : Obj ModSource) (p : String),
      (p ≠ createArrayId → getKey avail p = none →
        fakeRequire avail (fuel + 1) initReqState p =
          (Except.error (ReqErr.notFound p), initReqState, [])) ∧
      ((fakeRequire avail fuel initReqState p).1 =
          Except.error (ReqErr.notFound p) →
        p ≠ createArrayId ∧ getKey avail p = none) ∧
      fakeRequire avail (fuel + 1) initReqState createArrayId =
        (Except.ok JsValue.createArrayHelper, initReqState, []) := by
  intro fuel avail p
  have hcid : getKey initReqState.evaluated createArrayId =
      some JsValue.createArrayHelper := by
    simp [initReqState, getKey]
  refine ⟨?_, ?_, ?_⟩
  · intro hp ha
    have hc : getKey initReqState.evaluated p = none := by
      simp only [initReqState, getKey]
      rw [if_neg (fun h => hp h.symm)]
    simp only [fakeRequire]
    rw [hc, ha]
  · intro h
    obtain ⟨hc, ha⟩ := fakeRequire_notFound_src avail fuel initReqState p p h
    refine ⟨fun hp => ?_, ha⟩
    rw [hp] at hc
    rw [hcid] at hc
    cases hc
  · simp only [fakeRequire]
    rw [hcid]

/-- C6 witness: a fresh loader with an empty generated map rejects an
unknown identifier with the error naming it, and resolves the built-in
helper first even when the generated map shadows nothing relevant. -/
theorem module_not_found_iff_c6_witness :
    fakeRequire [] 1 initReqState "missing" =
      (Except.error (ReqErr.notFound "missing"), initReqState, []) ∧
    fakeRequire [("m", ModSource.noAssign)] 1 initReqState createArrayId =
      (Except.ok JsValue.createArrayHelper, initReqState, []) :=
  ⟨(module_not_found_iff_c6 0 [] "missing").1 (by decide) (by rfl),
   (module_not_found_iff_c6 0 [("m", ModSource.noAssign)] createArrayId).2.2⟩

/-- C7: a generated module whose first evaluation assigned the
module-exports cell is served from the cache on a repeat request: the same
value is returned, the cache is unchanged, and no module source is
evaluated again. -/
theorem module_cache_c7 :
    ∀ (avail : Obj ModSource) (fuel fuel' : Nat) (st st₁ : ReqState)
      (p : String) (src : ModSource) (v : JsValue) (log₁ : List String),
      getKey avail p = some src →
      fakeRequire avail fuel st p = (Except.ok v, st₁, log₁) →
      (getKey st₁.evaluated p).isSome = true →
      fakeRequire avail (fuel' + 1) st₁ p = (Except.ok v, st₁, []) := by
  intro avail fuel fuel' st st₁ p src v log₁ hsrc h hassigned
  obtain ⟨w, hw⟩ := Option.isSome_iff_exists.mp hassigned
  have hwv : w = v := fakeRequire_cached_val avail fuel st p v st₁ log₁ w h hw
  simp only [fakeRequire]
  rw [hw, hwv]

/-- C7 witness: after a module assigning `data 7` is evaluated once, the
second request returns the cached value with an empty evaluation log. -/
theorem module_cache_c7_witness :
    fakeRequire [("m", ModSource.assignConst (JsValue.data 7))] 1
        ⟨[(createArrayId, JsValue.createArrayHelper), ("m", JsValue.data 7)]⟩ "m" =
      (Except.ok (JsValue.data 7),
       ⟨[(createArrayId, JsValue.createArrayHelper), ("m", JsValue.data 7)]⟩, []) :=
  module_cache_c7 [("m", ModSource.assignConst (JsValue.data 7))] 1 0 initReqState
    ⟨[(createArrayId, JsValue.createArrayHelper), ("m", JsValue.data 7)]⟩ "m"
    (ModSource.assignConst (JsValue.data 7)) (JsValue.data 7) ["m"]
    (by rfl) (by rfl) (by rfl)

/-- C8: a source whose locator ends with one of the two excluded schema
suffixes is returned verbatim and excluded from further resolution; any
other source is parsed — as JSON when `extname` is `.json`, as YAML
otherwise; the two excluded locators do end in `.json`, so skipping the
parse is substantive. -/
theorem read_excluded_verbatim_c8 :
    ∀ source content : String,
      ((strEndsWith source "oas/schemas/schema.oas2.json" = true ∨
        strEndsWith source "oas/schemas/schema.oas3.json" = true) →
        fsRead source content = Parsed.raw content ∧ shouldResolve source = false) ∧
      (strEndsWith source "oas/schemas/schema.oas2.json" = false →
        strEndsWith source "oas/schemas/schema.oas3.json" = false →
        fsRead source content = parseContent content source ∧
          shouldResolve source = true) ∧
      (extname source = ".json" → parseContent content source = Parsed.json content) ∧
      (extname source ≠ ".json" → parseContent content source = Parsed.yaml content) ∧
      extname "oas/schemas/schema.oas2.json" = ".json" ∧
      extname "oas/schemas/schema.oas3.json" = ".json" := by
  intro source content
  refine ⟨?_, ?_, ?_, ?_, by rfl, by rfl⟩
  · intro h
    rcases h with h | h <;>
      exact ⟨by simp [fsRead, h], by simp [shouldResolve, h]⟩
  · intro h1 h2
    exact ⟨by simp [fsRead, h1, h2], by simp [shouldResolve, h1, h2]⟩
  · intro h
    simp [parseContent, h]
  · intro h
    simp [parseContent, h]

set_option maxRecDepth 4096 in
/-- C8 witness: the excluded-schema branch at an excluded locator, and
the parse branch at a YAML locator. -/
theorem read_excluded_verbatim_c8_witness :
    (fsRead "x/oas/schemas/schema.oas2.json" "c" = Parsed.raw "c" ∧
      shouldResolve "x/oas/schemas/schema.oas2.json" = false) ∧
    (fsRead "a.yaml" "c" = parseContent "c" "a.yaml" ∧
      shouldResolve "a.yaml" = true) :=
  ⟨(read_excluded_verbatim_c8 "x/oas/schemas/schema.oas2.json" "c").1
      (Or.inl (by decide)),
   (read_excluded_verbatim_c8 "a.yaml" "c").2.1 (by decide) (by decide)⟩

/-- C9: in a two-URI request whose top-level rulesets both contribute a
rule, a function and an exception under the same keys, the returned union
holds the later URI's entry for each key. -/
theorem readRuleset_later_uri_wins_c9 :
    ∀ (env : Env) (fuel : Nat) (u₁ u₂ : String) (rs₁ rs₂ : IRuleset)
      (st₁ st₂ : RState) (k kf ke : String) (v₁ v₂ : RuleEntry)
      (f₁ f₂ : ResolvedFunction) (e₁ e₂ : List String),
      u₁ ≠ u₂ →
      processRuleset env fuel ⟨[]⟩ u₁ u₁ none = Except.ok (some rs₁, st₁) →
      processRuleset env fuel ⟨[]⟩ u₂ u₂ none = Except.ok (some rs₂, st₂) →
      getKey rs₁.rules k = some v₁ →
      getKey rs₂.rules k = some v₂ →
      getKey rs₁.functions kf = some f₁ →
      getKey rs₂.functions kf = some f₂ →
      getKey rs₁.exceptions ke = some e₁ →
      getKey rs₂.exceptions ke = some e₂ →
      ∃ base, readRuleset env fuel [u₁, u₂] = Except.ok base ∧
        getKey base.rules k = some v₂ ∧
        getKey base.functions kf = some f₂ ∧
        getKey base.exceptions ke = some e₂ := by
  intro env fuel u₁ u₂ rs₁ rs₂ st₁ st₂ k kf ke v₁ v₂ f₁ f₂ e₁ e₂ hne h1 h2
    hr1 hr2 hf1 hf2 he1 he2
  have hded : dedupe [u₁, u₂] = [u₁, u₂] := by
    simp [dedupe, hne, Ne.symm hne]
  refine
    ⟨⟨assignObj (assignObj emptyRuleset.rules rs₁.rules) rs₂.rules,
      assignObj (assignObj emptyRuleset.functions rs₁.functions) rs₂.functions,
      assignObj (assignObj emptyRuleset.exceptions rs₁.exceptions) rs₂.exceptions⟩,
     ?_, ?_, ?_, ?_⟩
  · unfold readRuleset
    rw [hded]
    simp only [readRulesetAux]
    rw [h1]
    dsimp only
    rw [h2]
  · exact getKey_assignObj_some _ _ _ _ hr2
  · exact getKey_assignObj_some _ _ _ _ hf2
  · exact getKey_assignObj_some _ _ _ _ he2

/-- C9 witness: the two concrete rulesets `a` and `b` both binding rule
`r`, function `f` and exception `/p`; the union holds `b`'s entries. -/
theorem readRuleset_later_uri_wins_c9_witness :
    ∃ base, readRuleset envTwoUris 1 ["a", "b"] = Except.ok base ∧
      getKey base.rules "r" =
        some { severity := some FileRulesetSeverity.recommended, payload := 2 } ∧
      getKey base.functions "f" =
        some ⟨"f", "./f.js", some 3, "./f.js"⟩ ∧
      getKey base.exceptions "/p" = some ["x2"] :=
  readRuleset_later_uri_wins_c9 envTwoUris 1 "a" "b"
    ⟨[("r", { severity := some FileRulesetSeverity.recommended, payload := 1 })],
     [("f", ⟨"f", "./f.js", none, "./f.js"⟩)], [("/p", ["x1"])]⟩
    ⟨[("r", { severity := some FileRulesetSeverity.recommended, payload := 2 })],
     [("f", ⟨"f", "./f.js", some 3, "./f.js"⟩)], [("/p", ["x2"])]⟩
    ⟨["a"]⟩ ⟨["b"]⟩ "r" "f" "/p"
    { severity := some FileRulesetSeverity.recommended, payload := 1 }
    { severity := some FileRulesetSeverity.recommended, payload := 2 }
    ⟨"f", "./f.js", none, "./f.js"⟩
    ⟨"f", "./f.js", some 3, "./f.js"⟩ ["x1"] ["x2"]
    (by decide) (by rfl) (by rfl) (by rfl) (by rfl) (by rfl) (by rfl)
    (by rfl) (by rfl)

/-- C10: the directory declared functions are looked up in is the
ruleset's containing directory — or the locator itself for an NPM-sourced
ruleset — joined with `functionsDir` when present and the literal segment
`functions` otherwise; each declaration `fn` is looked up as the file
`./fn.js` there, and its resolved entry records that source. -/
theorem functionsBaseDir_c10 :
    ∀ (u : String) (f : Option String) (env : Env) (d : FunctionDecl)
      (baseDir s code : String),
      (functionsBaseDir false u f =
        joinPath [containingDir u,
          match f with | some dir => dir | none => "functions"]) ∧
      (functionsBaseDir true u f =
        joinPath [u, match f with | some dir => dir | none => "functions"]) ∧
      (env.findFile baseDir ("./" ++ declName d ++ ".js") = Except.ok s →
       env.readFile s = Except.ok code →
       resolveFunctions env baseDir [d] =
         Except.ok [(declName d, ⟨declName d, code, declSchema d, s⟩)]) := by
  intro u f env d baseDir s code
  refine ⟨?_, ?_, ?_⟩
  · show joinPath [u, "..", _] = _
    generalize (match f with | some dir => dir | none => "functions") = dir
    exact joinPath_parent_dir u dir
  · show joinPath [u, ".", _] = _
    generalize (match f with | some dir => dir | none => "functions") = dir
    exact joinPath_self_dir u dir
  · intro h1 h2
    unfold resolveFunctions
    simp only [resolveFunctionsAux]
    rw [h1]
    dsimp only
    rw [h2]
    dsimp only
    simp [setKey]

/-- C10 witness: the non-NPM base-directory equation at a concrete
locator, and a concrete declaration resolved as `./f1.js`. -/
theorem functionsBaseDir_c10_witness :
    (functionsBaseDir false "dir/a.yaml" none =
      joinPath [containingDir "dir/a.yaml", "functions"]) ∧
    resolveFunctions envFnUnreadable "functions" [FunctionDecl.bare "f1"] =
      Except.ok [("f1", ⟨"f1", "./f1.js", none, "./f1.js"⟩)] :=
  ⟨(functionsBaseDir_c10 "dir/a.yaml" none envFnUnreadable
      (FunctionDecl.bare "f1") "functions" "./f1.js" "./f1.js").1,
   (functionsBaseDir_c10 "dir/a.yaml" none envFnUnreadable
      (FunctionDecl.bare "f1") "functions" "./f1.js" "./f1.js").2.2
     (by rfl) (by rfl)⟩
